import Mathlib

/-!
# Verification of the garcon static-content HTTP server core

This file gives a shallow embedding, in Lean 4, of the core algorithms of the
garcon repository (package `http2`: the Range header parser, the content
responder's range-plan decision, the byte-skip fallback; package `fs`: the
directory tree scanner with identity reuse and compressed-alias synthesis,
the path resolver, and the Accept-Encoding check), together with theorems
about them.

Conventions of the embedding:
* Go `string` values are modelled as `List Char` (Go iterates and splits these
  strings at ASCII separator bytes, so splitting at the first occurrence of a
  character produces the same substrings in both representations).
* Go `int64` is modelled as `Int`; `strconv.ParseInt(s, 10, 64)` is modelled
  including its int64 range check (out-of-range decimals are a parse error).
* Go `uint64` identities are modelled as `Nat` (the identity counter starts at
  a wall-clock seed and increments; it never comes near `2^64` in a process
  lifetime, and no arithmetic other than `+1` is performed on it).
* Go maps (`map[string]*File`) are modelled as association lists with
  overwrite-on-insert semantics; lookup finds the unique binding of a key.
* `time.Time` values are compared only with `Equal`, so modification times are
  modelled as an opaque `Int` instant compared by equality.
* Regular expressions (`Handling.Match`) are external to the repository; a
  rule's matcher and its alias-template replacement are modelled as opaque
  functions `String → Bool` / `String → String`.
-/

namespace Garcon

/-! ## String helpers (Go `strings` / `strconv` behaviour on `List Char`) -/

/-- Go `unicode.IsSpace` for the characters relevant to `strings.TrimSpace`:
space, `\t`, `\n`, `\v`, `\f`, `\r`, U+0085 (NEL) and U+00A0 (NBSP). -/
def isGoSpace (c : Char) : Bool :=
  (c == ' ') || (c == '\t') || (c == '\n') || (c == Char.ofNat 11) ||
  (c == Char.ofNat 12) || (c == '\r') || (c == Char.ofNat 133) || (c == Char.ofNat 160)

/-- Go `strings.TrimSpace`: remove leading and trailing white space. -/
def goTrimSpace (cs : List Char) : List Char :=
  ((cs.dropWhile isGoSpace).reverse.dropWhile isGoSpace).reverse

/-- Go `strings.Split(s, sep)` for a one-character separator.
Always returns at least one (possibly empty) piece. -/
def splitOnChar (sep : Char) : List Char → List (List Char)
  | [] => [[]]
  | c :: rest =>
    match splitOnChar sep rest with
    | [] => [[]]
    | s :: ss => if c = sep then [] :: s :: ss else (c :: s) :: ss

/-- Split at the first `'-'`: Go `i := strings.Index(ra, "-")` followed by
`ra[:i]`, `ra[i+1:]`.  Returns `none` when there is no dash (`i < 0`). -/
def firstDashSplit : List Char → Option (List Char × List Char)
  | [] => none
  | c :: rest =>
    if c = '-' then some ([], rest)
    else
      match firstDashSplit rest with
      | none => none
      | some (a, b) => some (c :: a, b)

/-- Decimal value of a digit string (helper for `parseInt64`). -/
def digitsVal (ds : List Char) : Nat :=
  ds.foldl (fun a c => a * 10 + (c.toNat - 48)) 0

/-- Sign handling of `strconv.ParseInt`: a leading `'+'` or `'-'` is
stripped, and the sign is remembered. -/
def splitSign : List Char → Bool × List Char
  | [] => (false, [])
  | c :: rest =>
    if c = '+' then (false, rest)
    else if c = '-' then (true, rest)
    else (false, c :: rest)

/-- The signed value denoted by `s` (sign applied to the digit value). -/
def signedVal (s : List Char) : Int :=
  if (splitSign s).1 then -(digitsVal (splitSign s).2 : Int) else (digitsVal (splitSign s).2 : Int)

/-- Go `strconv.ParseInt(s, 10, 64)`: optional sign, at least one decimal
digit, nothing else, and the value must fit in an `int64`. -/
def parseInt64 (s : List Char) : Option Int :=
  if (splitSign s).2 = [] then none
  else if (splitSign s).2.all Char.isDigit then
    if signedVal s < -9223372036854775808 ∨ signedVal s > 9223372036854775807 then none
    else some (signedVal s)
  else none

/-! ## Range parser (`http2.parseRange` and helpers) -/

/-- `httpRange` from the source: the byte range to be sent to the client. -/
structure httpRange where
  start : Int
  length : Int
deriving DecidableEq, Repr

/-- The two error values `parseRange` can produce:
`errors.New("invalid range")` and `errors.New("overlapping ranges")`. -/
inductive RangeError where
  | invalid
  | overlapping
deriving DecidableEq, Repr

/-- The body of `parseRange`'s loop for one comma-separated range spec `ra`.
`ok none` models the `continue` on an all-blank spec. -/
def parseRangeSpec (ra : List Char) (size : Int) : Except RangeError (Option httpRange) :=
  if goTrimSpace ra = [] then .ok none
  else
    match firstDashSplit (goTrimSpace ra) with
    | none => .error .invalid
    | some (s0, e0) =>
      if goTrimSpace s0 = [] then
        -- no start: end specifies a suffix length, capped at size;
        -- start = size - capped, length = size - start
        match parseInt64 (goTrimSpace e0) with
        | none => .error .invalid
        | some i =>
          .ok (some ⟨size - (if i > size then size else i),
                     size - (size - (if i > size then size else i))⟩)
      else
        match parseInt64 (goTrimSpace s0) with
        | none => .error .invalid
        | some i =>
          if i ≥ size ∨ i < 0 then .error .invalid
          else if goTrimSpace e0 = [] then
            -- no end: range extends to the end of the file
            .ok (some ⟨i, size - i⟩)
          else
            match parseInt64 (goTrimSpace e0) with
            | none => .error .invalid
            | some j =>
              if i > j then .error .invalid
              else
                -- end clamped to size - 1
                .ok (some ⟨i, (if j ≥ size then size - 1 else j) - i + 1⟩)

/-- The loop of `parseRange`: parse every spec, in order, keeping the
non-blank ones; the first failing spec aborts the whole parse. -/
def collectRanges (specs : List (List Char)) (size : Int) :
    Except RangeError (List httpRange) :=
  match specs with
  | [] => .ok []
  | ra :: rest =>
    match parseRangeSpec ra size with
    | .error e => .error e
    | .ok r? =>
      match collectRanges rest size with
      | .error e => .error e
      | .ok rs =>
        match r? with
        | none => .ok rs
        | some r => .ok (r :: rs)

/-- Insert a range into an (already sorted) list directly before the first
element whose start is strictly greater — the final position of
`child_to_find_place_for` in one pass of the source's insertion sort,
which shifts elements left while `ranges[y-1].start > child.start`. -/
def insertRange : List httpRange → httpRange → List httpRange
  | [], r => [r]
  | x :: xs, r => if x.start > r.start then r :: x :: xs else x :: insertRange xs r

/-- The source's stable insertion sort by ascending `start`: each element, in
input order, is inserted into the sorted prefix built so far. -/
def sortRanges (rs : List httpRange) : List httpRange :=
  rs.foldl insertRange []

/-- The overlap scan of `parseRange`: `true` iff some adjacent pair of the
list satisfies `ranges[x].start < ranges[x-1].start + ranges[x-1].length`. -/
def overlapAdjacent : List httpRange → Bool
  | a :: b :: rest => (decide (b.start < a.start + a.length)) || overlapAdjacent (b :: rest)
  | _ => false

/-- Does the header start with `"bytes="`? (Go `strings.HasPrefix(s, b)`.) -/
def hasBytesEq : List Char → Bool
  | 'b' :: 'y' :: 't' :: 'e' :: 's' :: '=' :: _ => true
  | _ => false

/-- The sorting step of `parseRange`: the ranges are put in ascending start
order when `sorted` is requested or overlap is to be checked. -/
def normRanges (overlap_allowed : Bool) (sorted : Bool) (rs : List httpRange) : List httpRange :=
  if sorted || !overlap_allowed then sortRanges rs else rs

/-- `http2.parseRange(s, size, overlap_allowed, sorted)`. -/
def parseRange (s : List Char) (size : Int) (overlap_allowed : Bool) (sorted : Bool) :
    Except RangeError (List httpRange) :=
  if s = [] then .ok []   -- header not present
  else if hasBytesEq s then
    match collectRanges (splitOnChar ',' (s.drop 6)) size with
    | .error e => .error e
    | .ok rs =>
      if overlap_allowed then .ok (normRanges overlap_allowed sorted rs)
      else if overlapAdjacent (normRanges overlap_allowed sorted rs) then .error .overlapping
      else .ok (normRanges overlap_allowed sorted rs)
  else .error .invalid

/-! ## Content responder (`http2.ServeContent`, range-evaluation step) -/

/-- `http2.sumRangesSize`. -/
def sumRangesSize (ranges : List httpRange) : Int :=
  ranges.foldl (fun acc ra => acc + ra.length) 0

/-- What `ServeContent` decides to send once the size is known (`size >= 0`):
`notSatisfiable` is the 416 error response on a range parse failure;
`whole` is a plain 200 response carrying the whole body (`sendSize = size`);
`single`/`multi` are 206 responses (one `Content-Range` range, resp. a
`multipart/byteranges` body). -/
inductive SendPlan where
  | notSatisfiable
  | whole
  | single (ra : httpRange)
  | multi (ras : List httpRange)
deriving DecidableEq, Repr

/-- HTTP status code of a `SendPlan`. -/
def SendPlan.status : SendPlan → Nat
  | .notSatisfiable => 416
  | .whole => 200
  | .single _ => 206
  | .multi _ => 206

/-- The range-evaluation block of `ServeContent` for a known non-negative
`size`: parse the Range header with `overlap_allowed = can_seek` and
`sorted = !can_seek`; if the ranges' total length exceeds the size, drop
them (`ranges = nil`); then choose the response shape by `len(ranges)`. -/
def rangePlan (rangeReq : List Char) (size : Int) (can_seek : Bool) : SendPlan :=
  match parseRange rangeReq size can_seek (!can_seek) with
  | .error _ => .notSatisfiable
  | .ok ranges =>
    let ranges := if sumRangesSize ranges > size then [] else ranges
    match ranges with
    | [] => .whole
    | [ra] => .single ra
    | _ => .multi ranges

/-! ## Byte-skip fallback (`http2.skip`) -/

/-- The result of one `Read` call: number of bytes read and an optional
error (error values are abstracted to a numeric code). -/
structure ReadRes where
  n : Int
  err : Option Nat
deriving DecidableEq, Repr

/-- Size of the slice of the 32768-byte buffer passed to `Read`:
`buf[:]` when more than the buffer's worth is still needed, else
`buf[:howmany]`. -/
def skipCap (howmany : Int) : Int :=
  if howmany > 32768 then 32768 else howmany

/-- Outcome of `skip`: the loop exits normally (`done` with the final value
of `howmany`), returns a read error (`fail`), or the modelled read stream
is exhausted while bytes are still owed (`starved` — in Go the next `Read`
call would block or keep returning; the supply of read results is the
recursion fuel of the model). -/
inductive SkipOut where
  | done (remaining : Int)
  | fail (e : Nat)
  | starved (remaining : Int)
deriving DecidableEq, Repr

/-- `http2.skip(r, howmany)`: read and discard until `howmany` bytes are
consumed.  The reader is modelled as a list of per-call behaviours, each a
function from the passed buffer capacity to the call's `(n, err)` result.
A read aborts the loop iff `n <= 0 && err != nil`. -/
def skipGo (reads : List (Int → ReadRes)) (howmany : Int) : SkipOut :=
  match reads with
  | [] => if howmany ≤ 0 then .done howmany else .starved howmany
  | f :: rest =>
    if howmany ≤ 0 then .done howmany
    else
      let res := f (skipCap howmany)
      if res.n ≤ 0 then
        match res.err with
        | some e => .fail e
        | none => skipGo rest (howmany - res.n)
      else skipGo rest (howmany - res.n)

/-- The sequence of `Read` calls `skipGo` performs: for each call, the
buffer capacity passed and the result obtained. -/
def skipTrace (reads : List (Int → ReadRes)) (howmany : Int) : List (Int × ReadRes) :=
  match reads with
  | [] => []
  | f :: rest =>
    if howmany ≤ 0 then []
    else
      let res := f (skipCap howmany)
      if res.n ≤ 0 then
        match res.err with
        | some _ => [(skipCap howmany, res)]
        | none => (skipCap howmany, res) :: skipTrace rest (howmany - res.n)
      else (skipCap howmany, res) :: skipTrace rest (howmany - res.n)

/-! ## Directory entry model and tree scanner (`fs.File`, `fs.scan`) -/

/-- The stat record of one directory entry (`os.FileInfo` as used by the
scanner): name, size, modification instant and directory flag.  Mode bits
are never consulted by the scanner and are omitted. -/
structure FInfo where
  name : String
  size : Int
  modTime : Int
  isDir : Bool
deriving DecidableEq, Repr

/-- `fs.File`: a directory entry.  `data` is the path of the directory that
contains the entry (the on-disk variant of the source locator; the raw
in-memory variant is not used by the scanner). -/
inductive File where
  | mk : FInfo → Nat → List (String × File) → Bool → String → File

/-- Stat info of the entry (`File.Info`). -/
def File.info : File → FInfo
  | .mk i _ _ _ _ => i

/-- Identity of the entry (`File.Id`), used as ETag. -/
def File.id : File → Nat
  | .mk _ n _ _ _ => n

/-- Children mapping of a directory entry (`File.Contents`). -/
def File.contents : File → List (String × File)
  | .mk _ _ c _ _ => c

/-- `File.Gzip`: true iff this entry is a compressed alias to be served
with `Content-Encoding: gzip`. -/
def File.gzip : File → Bool
  | .mk _ _ _ g _ => g

/-- Directory path holding the entry (`File.Data`, string variant). -/
def File.data : File → String
  | .mk _ _ _ _ d => d

/-- Lookup in a `map[string]*File` modelled as an association list. -/
def lookupName : List (String × File) → String → Option File
  | [], _ => none
  | (k, v) :: rest, name => if k = name then some v else lookupName rest name

/-- Go map assignment `m[k] = v`: any previous binding of `k` is replaced. -/
def mapInsert (m : List (String × File)) (k : String) (v : File) : List (String × File) :=
  (k, v) :: m.filter (fun p => !(p.1 == k))

/-- `fs.Handling`: a rule of the ordered rule set.  `matchString` models
`Match.MatchString`; `gzip = some rep` models a non-empty `Gzip`
replacement template, with `rep` the application of
`Match.ReplaceAllString (·, Gzip)`. -/
structure Handling where
  matchString : String → Bool
  hide : Bool
  gzip : Option (String → String)

/-- The identity decision of `fs.scan` for one entry (with the counter state
threaded explicitly): reuse `old[name].Id` iff the name exists in `old`,
its stored modification time equals the fresh one, and directory-ness is
unchanged; otherwise take the next value of the process-wide counter.
Returns the entry's identity and the new counter state. -/
def decideId (old : List (String × File)) (fi : FInfo) (c : Nat) : Nat × Nat :=
  match lookupName old fi.name with
  | some o =>
    if o.info.modTime = fi.modTime ∧ o.info.isDir = fi.isDir then (o.id, c)
    else (c, c + 1)
  | none => (c, c + 1)

/-- State threaded through the entry loop of `fs.scan`: the mapping built so
far (`cur`), the subdirectory names seen (`dirs`), the staged compressed
aliases (`aliases1`/`aliases2`, zipped) and the identity counter. -/
structure ScanState where
  cur : List (String × File)
  dirs : List String
  aliases : List (String × File)
  counter : Nat

/-- One iteration of the entry loop of `fs.scan`: find the first matching
rule (`none` models the out-of-bounds access that a rule set without
catch-all would cause), decide the identity, stage a compressed alias for a
non-directory before the hide check, skip the entry if hidden, else insert
it into `cur` and record a subdirectory. -/
def scanEntry (rules : List Handling) (old : List (String × File)) (dir : String)
    (st : ScanState) (fi : FInfo) : Option ScanState :=
  match rules.find? (fun h => h.matchString fi.name) with
  | none => none
  | some h =>
    let idc := decideId old fi st.counter
    let n : File := .mk fi idc.1 [] false dir
    let aliases' :=
      match h.gzip with
      | some rep =>
        if fi.isDir then st.aliases
        else st.aliases ++ [(rep fi.name, File.mk fi idc.1 [] true dir)]
      | none => st.aliases
    if h.hide then some { st with aliases := aliases', counter := idc.2 }
    else
      some { cur := mapInsert st.cur fi.name n
             dirs := if fi.isDir then st.dirs ++ [fi.name] else st.dirs
             aliases := aliases'
             counter := idc.2 }

/-- The entry loop of `fs.scan` over the whole directory listing. -/
def scanLoop (rules : List Handling) (old : List (String × File)) (dir : String) :
    List FInfo → ScanState → Option ScanState
  | [], st => some st
  | fi :: rest, st =>
    match scanEntry rules old dir st fi with
    | none => none
    | some st' => scanLoop rules old dir rest st'

/-- The first pass of `fs.scan` on one directory: run the entry loop on the
listing, starting from an empty mapping and the current counter. -/
def scanPass1 (rules : List Handling) (old : List (String × File)) (dir : String)
    (fis : List FInfo) (c : Nat) : Option ScanState :=
  scanLoop rules old dir fis ⟨[], [], [], c⟩

/-- The alias-insertion loop of `fs.scan`: each staged alias, in order, is
inserted only if its name is not yet bound in `cur`; otherwise it is
dropped. -/
def insertAliases (cur : List (String × File)) : List (String × File) → List (String × File)
  | [] => cur
  | (k, v) :: rest =>
    if (lookupName cur k).isSome then insertAliases cur rest
    else insertAliases (mapInsert cur k v) rest

/-- `fs.scan` restricted to one directory (the recursion into subdirectories
applies the same function to each subdirectory with its previous children
mapping and is not needed for the claims below): the entry pass followed by
the alias-insertion pass.  Returns the new children mapping and the counter
state. -/
def scanDir (rules : List Handling) (old : List (String × File)) (dir : String)
    (fis : List FInfo) (c : Nat) : Option (List (String × File) × Nat) :=
  match scanPass1 rules old dir fis c with
  | none => none
  | some st => some (insertAliases st.cur st.aliases, st.counter)

/-! ## Path resolution (`fs.FileManager.ServeHTTP`, lookup part) -/

/-- The path-walk loop of `ServeHTTP`: segments are looked up left to right
in the current children mapping (empty segments are skipped); a missing
segment breaks the loop with `ok = false`.  After a non-directory, the
walk continues in the empty mapping, so any further non-empty segment
fails.  Returns the last entry assigned to `x` and the final `ok`. -/
def walkSegs (dirm : List (String × File)) (x : Option File) (ok : Bool) :
    List String → Option File × Bool
  | [] => (x, ok)
  | name :: rest =>
    if name = "" then walkSegs dirm x ok rest
    else
      match lookupName dirm name with
      | none => (none, false)
      | some f => walkSegs (if f.info.isDir then f.contents else []) (some f) true rest

/-- The index rewrite of `ServeHTTP`: when the walk succeeded and ended on
a directory, look up `"index.html"` in that directory instead. -/
def resolveStep (w : Option File × Bool) : Option File × Bool :=
  match w with
  | (some f, true) =>
    if f.info.isDir then
      match lookupName f.contents ("index.html") with
      | some g => (some g, true)
      | none => (none, false)
    else (some f, true)
  | _ => w

/-- The final 404 test of `ServeHTTP`: serve the entry only if the walk (and
possible index rewrite) succeeded and the entry is not a directory. -/
def resolveFinal (w : Option File × Bool) : Option File :=
  match w with
  | (some f, true) => if f.info.isDir then none else some f
  | _ => none

/-- The resolution logic of `ServeHTTP` after path cleaning: walk the
segments of the cleaned path; if the result is a directory, look up
`"index.html"` inside it instead; answer 404 (`none`) if any segment was
missing, the index lookup failed, or the final entry is (still) a
directory. -/
def resolve (root : List (String × File)) (clean : String) : Option File :=
  resolveFinal
    (resolveStep (walkSegs root none false ((splitOnChar '/' clean.toList).map List.asString)))

/-! ## Accept-Encoding check and stream compression flag
(`fs.FileManager.ServeHTTP`, `fs.File.GetStream`) -/

/-- The gzip-acceptance loop of `ServeHTTP`: the client understands gzip iff
some comma-separated element of some `Accept-Encoding` header value equals
`"gzip"` exactly, after trimming surrounding white space. -/
def understandsGzip (acceptEncoding : List String) : Bool :=
  acceptEncoding.any fun aes =>
    (splitOnChar ',' aes.toList).any fun ae => goTrimSpace ae == ("gzip".toList)

/-- The `is_gzipped` result of `fs.File.GetStream(keep_gzipped)` as a
function of the entry's `Gzip` flag: a non-gzipped file is returned as is;
a gzipped one is returned gzipped only when `keep_gzipped`, else it is
wrapped in a decompressing reader and `is_gzipped` becomes false. -/
def getStreamIsGzipped (fileGzip : Bool) (keep_gzipped : Bool) : Bool :=
  fileGzip && keep_gzipped

/-! ## Lemmas about the string helpers -/

theorem mem_dropWhile {p : Char → Bool} {cs : List Char} {x : Char}
    (h : x ∈ cs.dropWhile p) : x ∈ cs := by
  induction cs with
  | nil => simp at h
  | cons c rest ih =>
    by_cases hc : p c
    · simp [List.dropWhile, hc] at h
      exact List.mem_cons_of_mem _ (ih h)
    · simpa [List.dropWhile, hc] using h

theorem mem_goTrimSpace {cs : List Char} {x : Char} (h : x ∈ goTrimSpace cs) : x ∈ cs := by
  unfold goTrimSpace at h
  rw [List.mem_reverse] at h
  have h1 := mem_dropWhile h
  rw [List.mem_reverse] at h1
  exact mem_dropWhile h1

theorem dropWhile_eq_self {p : Char → Bool} {cs : List Char}
    (h : ∀ c ∈ cs, p c = false) : cs.dropWhile p = cs := by
  cases cs with
  | nil => rfl
  | cons c rest => simp [List.dropWhile, h c (by simp)]

theorem goTrimSpace_eq_self {cs : List Char}
    (h : ∀ c ∈ cs, isGoSpace c = false) : goTrimSpace cs = cs := by
  unfold goTrimSpace
  rw [dropWhile_eq_self h]
  rw [dropWhile_eq_self (fun c hc => h c (List.mem_reverse.mp hc))]
  exact List.reverse_reverse cs

theorem splitOnChar_no_sep {sep : Char} {cs : List Char}
    (h : ∀ c ∈ cs, c ≠ sep) : splitOnChar sep cs = [cs] := by
  induction cs with
  | nil => rfl
  | cons c rest ih =>
    have hr := ih (fun x hx => h x (by simp [hx]))
    simp [splitOnChar, hr, h c (by simp)]

theorem firstDashSplit_no_dash {cs a b : List Char}
    (h : firstDashSplit cs = some (a, b)) : '-' ∉ a := by
  induction cs generalizing a b with
  | nil => exact Option.noConfusion h
  | cons c rest ih =>
    unfold firstDashSplit at h
    split at h
    · injection h with h'
      injection h' with h1 h2
      rw [← h1]
      simp
    · next hc =>
      cases hfd : firstDashSplit rest with
      | none => rw [hfd] at h; exact Option.noConfusion h
      | some p =>
        obtain ⟨a', b'⟩ := p
        rw [hfd] at h
        injection h with h'
        injection h' with h1 h2
        rw [← h1]
        intro hmem
        rcases List.mem_cons.mp hmem with h3 | h3
        · exact hc h3.symm
        · exact ih hfd h3

theorem splitSign_neg_false {s : List Char} (hnd : '-' ∉ s) : (splitSign s).1 = false := by
  cases s with
  | nil => rfl
  | cons c rest =>
    simp only [splitSign]
    by_cases h1 : c = '+'
    · rw [if_pos h1]
    · rw [if_neg h1]
      by_cases h2 : c = '-'
      · exact absurd (by rw [h2]; exact List.mem_cons_self _ _) hnd
      · rw [if_neg h2]

theorem char_isDigit_ne (c x : Char) (hd : c.isDigit = true) (hx : x.isDigit = false) :
    c ≠ x := by
  intro h
  rw [h, hx] at hd
  exact Bool.noConfusion hd

theorem splitSign_fst_digits {s : List Char} (hd : ∀ c ∈ s, c.isDigit = true) :
    (splitSign s).1 = false := by
  cases s with
  | nil => rfl
  | cons c rest =>
    have hc := hd c (List.mem_cons_self _ _)
    simp only [splitSign]
    rw [if_neg (char_isDigit_ne c '+' hc (by decide)),
        if_neg (char_isDigit_ne c '-' hc (by decide))]

theorem splitSign_snd_digits {s : List Char} (hd : ∀ c ∈ s, c.isDigit = true) :
    (splitSign s).2 = s := by
  cases s with
  | nil => rfl
  | cons c rest =>
    have hc := hd c (List.mem_cons_self _ _)
    simp only [splitSign]
    rw [if_neg (char_isDigit_ne c '+' hc (by decide)),
        if_neg (char_isDigit_ne c '-' hc (by decide))]

theorem parseInt64_nonneg {s : List Char} {v : Int}
    (hnd : '-' ∉ s) (h : parseInt64 s = some v) : 0 ≤ v := by
  unfold parseInt64 at h
  split at h
  · exact Option.noConfusion h
  split at h
  · split at h
    · exact Option.noConfusion h
    · injection h with h'
      rw [← h']
      unfold signedVal
      rw [splitSign_neg_false hnd]
      simp
  · exact Option.noConfusion h

theorem parseInt64_digits {ds : List Char} (hne : ds ≠ [])
    (hd : ∀ c ∈ ds, c.isDigit = true)
    (hbound : (digitsVal ds : Int) ≤ 9223372036854775807) :
    parseInt64 ds = some (digitsVal ds : Int) := by
  unfold parseInt64 signedVal
  rw [splitSign_fst_digits hd, splitSign_snd_digits hd]
  rw [if_neg hne, if_pos (List.all_eq_true.mpr hd)]
  simp only [Bool.false_eq_true, if_false]
  rw [if_neg (by push_neg; omega)]

/-! ## Lemmas about the range parser -/

theorem parseRangeSpec_error_invalid {ra : List Char} {size : Int} {e : RangeError}
    (h : parseRangeSpec ra size = .error e) : e = .invalid := by
  unfold parseRangeSpec at h
  repeat' split at h
  all_goals
    first
    | exact Except.noConfusion h
    | (injection h with h'; exact h'.symm)

theorem collectRanges_error_invalid {specs : List (List Char)} {size : Int} {e : RangeError}
    (h : collectRanges specs size = .error e) : e = .invalid := by
  induction specs generalizing e with
  | nil => exact Except.noConfusion h
  | cons ra rest ih =>
    unfold collectRanges at h
    cases hs : parseRangeSpec ra size with
    | error e' =>
      rw [hs] at h
      injection h with h'
      rw [← h']
      exact parseRangeSpec_error_invalid hs
    | ok r? =>
      rw [hs] at h
      cases hc : collectRanges rest size with
      | error e' =>
        rw [hc] at h
        injection h with h'
        rw [← h']
        exact ih hc
      | ok rs =>
        rw [hc] at h
        cases r? with
        | none => exact Except.noConfusion h
        | some r => exact Except.noConfusion h

theorem collectRanges_error_of_mem {specs : List (List Char)} {size : Int} {ra : List Char}
    (hmem : ra ∈ specs) (herr : parseRangeSpec ra size = .error .invalid) :
    collectRanges specs size = .error .invalid := by
  induction specs with
  | nil => exact absurd hmem (List.not_mem_nil _)
  | cons hd rest ih =>
    unfold collectRanges
    cases hs : parseRangeSpec hd size with
    | error e' => rw [parseRangeSpec_error_invalid hs]
    | ok r? =>
      rcases List.mem_cons.mp hmem with h1 | h1
      · rw [← h1] at hs
        rw [herr] at hs
        exact Except.noConfusion hs
      · rw [ih h1]

theorem hasBytesEq_ne_nil {s : List Char} (h : hasBytesEq s = true) : s ≠ [] := by
  intro he
  rw [he] at h
  exact Bool.noConfusion h

/-- `parseRange` fails with the invalid-range error whenever its per-spec
loop does. -/
theorem parseRange_error_of_collect {s : List Char} {size : Int}
    (hb : hasBytesEq s = true)
    (hc : collectRanges (splitOnChar ',' (s.drop 6)) size = .error .invalid)
    (ov srt : Bool) : parseRange s size ov srt = .error .invalid := by
  unfold parseRange
  rw [if_neg (hasBytesEq_ne_nil hb), if_pos hb, hc]

/-- With `overlap_allowed = false`, `parseRange` sorts and then fails iff
some adjacent pair of the sorted list overlaps. -/
theorem parseRange_overlap_check {s : List Char} {size : Int} {rs : List httpRange}
    (hb : hasBytesEq s = true)
    (hc : collectRanges (splitOnChar ',' (s.drop 6)) size = .ok rs) (srt : Bool) :
    parseRange s size false srt =
      if overlapAdjacent (sortRanges rs) then .error .overlapping
      else .ok (sortRanges rs) := by
  unfold parseRange normRanges
  rw [if_neg (hasBytesEq_ne_nil hb), if_pos hb, hc]
  simp only [Bool.not_false, Bool.or_true, if_true, Bool.false_eq_true, if_false]

theorem insertRange_mem {xs : List httpRange} {r y : httpRange}
    (h : y ∈ insertRange xs r) : y = r ∨ y ∈ xs := by
  induction xs with
  | nil => simp [insertRange] at h; exact Or.inl h
  | cons x xs ih =>
    unfold insertRange at h
    split at h
    · rcases List.mem_cons.mp h with h1 | h1
      · exact Or.inl h1
      · exact Or.inr h1
    · rcases List.mem_cons.mp h with h1 | h1
      · exact Or.inr (by simp [h1])
      · rcases ih h1 with h2 | h2
        · exact Or.inl h2
        · exact Or.inr (by simp [h2])

theorem insertRange_pairwise {xs : List httpRange} {r : httpRange}
    (h : xs.Pairwise (fun a b => a.start ≤ b.start)) :
    (insertRange xs r).Pairwise (fun a b => a.start ≤ b.start) := by
  induction xs with
  | nil => simp [insertRange]
  | cons x xs ih =>
    rw [List.pairwise_cons] at h
    unfold insertRange
    split
    · next hgt =>
      rw [List.pairwise_cons]
      refine ⟨?_, List.pairwise_cons.mpr h⟩
      intro y hy
      rcases List.mem_cons.mp hy with h1 | h1
      · rw [h1]; omega
      · have := h.1 y h1; omega
    · next hle =>
      rw [List.pairwise_cons]
      refine ⟨?_, ih h.2⟩
      intro y hy
      rcases insertRange_mem hy with h1 | h1
      · rw [h1]; omega
      · exact h.1 y h1

theorem sortRanges_pairwise (rs : List httpRange) :
    (sortRanges rs).Pairwise (fun a b => a.start ≤ b.start) := by
  have general : ∀ (l : List httpRange) (acc : List httpRange),
      acc.Pairwise (fun a b => a.start ≤ b.start) →
      (l.foldl insertRange acc).Pairwise (fun a b => a.start ≤ b.start) := by
    intro l
    induction l with
    | nil => intro acc h; simpa using h
    | cons x xs ih => intro acc h; exact ih _ (insertRange_pairwise h)
  exact general rs [] (by simp)

theorem overlapAdjacent_eq_false_iff (l : List httpRange) :
    overlapAdjacent l = false ↔ l.Chain' (fun a b => a.start + a.length ≤ b.start) := by
  induction l with
  | nil => simp [overlapAdjacent]
  | cons a l ih =>
    cases l with
    | nil => simp [overlapAdjacent]
    | cons b rest =>
      have heq : overlapAdjacent (a :: b :: rest) =
          ((decide (b.start < a.start + a.length)) || overlapAdjacent (b :: rest)) := rfl
      rw [heq, List.chain'_cons, ← ih, Bool.or_eq_false_iff]
      constructor
      · intro hx
        have h1 := hx.1
        simp at h1
        exact ⟨by omega, hx.2⟩
      · intro hx
        have h1 := hx.1
        refine ⟨?_, hx.2⟩
        simp
        omega

/-! ## Claim theorems: range parser -/

/-- C2: the range parser satisfies the spec's concrete examples for
`totalSize = 1000`, `overlapAllowed = true`, `mustBeSorted = true`:
`"bytes=0-99"` gives the single range `{start 0, length 100}`,
`"bytes=-500"` gives `{start 500, length 500}`,
`"bytes=100-"` gives `{start 100, length 900}`,
and the empty header gives no ranges and no error. -/
theorem claim2_range_examples :
    parseRange ("bytes=0-99".toList) 1000 true true = .ok [⟨0, 100⟩] ∧
    parseRange ("bytes=-500".toList) 1000 true true = .ok [⟨500, 500⟩] ∧
    parseRange ("bytes=100-".toList) 1000 true true = .ok [⟨100, 900⟩] ∧
    parseRange ("".toList) 1000 true true = .ok [] :=
  ⟨rfl, rfl, rfl, rfl⟩

/-- C3: with `overlapAllowed = false` the returned ranges are sorted
ascending by start, and the parse fails whenever two adjacent ranges of the
sorted list touch or overlap (share at least one byte position, i.e. the
second range starts at or before the last byte of the first); in particular
`"bytes=0-99,50-149"` fails with the overlap error and
`"bytes=0-99,200-299"` yields two ranges sorted ascending by start. -/
theorem claim3_sorted_no_overlap :
    (∀ (s : List Char) (size : Int) (srt : Bool) (rs : List httpRange),
       parseRange s size false srt = .ok rs →
       rs.Pairwise (fun a b => a.start ≤ b.start) ∧
       rs.Chain' (fun a b => a.start + a.length ≤ b.start)) ∧
    (∀ (s : List Char) (size : Int) (srt : Bool) (rs : List httpRange),
       hasBytesEq s = true →
       collectRanges (splitOnChar ',' (s.drop 6)) size = .ok rs →
       ¬ (sortRanges rs).Chain' (fun a b => a.start + a.length ≤ b.start) →
       parseRange s size false srt = .error .overlapping) ∧
    parseRange ("bytes=0-99,50-149".toList) 1000 false true = .error .overlapping ∧
    parseRange ("bytes=0-99,200-299".toList) 1000 false true = .ok [⟨0, 100⟩, ⟨200, 100⟩] := by
  refine ⟨?_, ?_, rfl, rfl⟩
  · intro s size srt rs h
    unfold parseRange normRanges at h
    split at h
    · injection h with h'
      rw [← h']
      exact ⟨List.Pairwise.nil, List.chain'_nil⟩
    · split at h
      · cases hc : collectRanges (splitOnChar ',' (s.drop 6)) size with
        | error e => rw [hc] at h; exact Except.noConfusion h
        | ok rs0 =>
          rw [hc] at h
          simp only [Bool.not_false, Bool.or_true, if_true, Bool.false_eq_true, if_false] at h
          split at h
          · exact Except.noConfusion h
          · next hov =>
            injection h with h'
            rw [← h']
            refine ⟨sortRanges_pairwise rs0, (overlapAdjacent_eq_false_iff _).mp ?_⟩
            revert hov
            cases overlapAdjacent (sortRanges rs0) <;> simp
      · exact Except.noConfusion h
  · intro s size srt rs hb hc hchain
    rw [parseRange_overlap_check hb hc srt]
    rw [if_pos ?_]
    revert hchain
    rw [← overlapAdjacent_eq_false_iff]
    cases overlapAdjacent (sortRanges rs) <;> simp

/-- Witness for C3 at concrete inputs: the general parts applied to
`"bytes=0-99,200-299"` (sortedness and no adjacent touch/overlap on
success) and to `"bytes=0-99,50-149"` (adjacent overlap forces the
error). -/
theorem claim3_sorted_no_overlap_witness :
    (([⟨0, 100⟩, ⟨200, 100⟩] : List httpRange).Pairwise (fun a b => a.start ≤ b.start) ∧
     ([⟨0, 100⟩, ⟨200, 100⟩] : List httpRange).Chain' (fun a b => a.start + a.length ≤ b.start)) ∧
    parseRange ("bytes=0-99,50-149".toList) 1000 false true = .error .overlapping :=
  ⟨claim3_sorted_no_overlap.1 ("bytes=0-99,200-299".toList) 1000 true [⟨0, 100⟩, ⟨200, 100⟩] rfl,
   claim3_sorted_no_overlap.2.1 ("bytes=0-99,50-149".toList) 1000 true [⟨0, 100⟩, ⟨50, 100⟩] rfl rfl
     (fun hch => by
        have h0 := (overlapAdjacent_eq_false_iff
          (sortRanges [⟨0, 100⟩, ⟨50, 100⟩])).mpr hch
        exact Bool.noConfusion
          ((rfl : overlapAdjacent (sortRanges [⟨0, 100⟩, ⟨50, 100⟩]) = true).symm.trans h0))⟩

/-- C7: when the size is known (non-negative) and the Range header parses to
ranges whose total length exceeds the size, `ServeContent` drops the ranges
and serves the whole body with status 200. -/
theorem claim7_oversized_range_ignored :
    ∀ (rangeReq : List Char) (size : Int) (can_seek : Bool) (rs : List httpRange),
      0 ≤ size →
      parseRange rangeReq size can_seek (!can_seek) = .ok rs →
      sumRangesSize rs > size →
      rangePlan rangeReq size can_seek = .whole ∧
      (rangePlan rangeReq size can_seek).status = 200 := by
  intro rangeReq size can_seek rs hsz hp hsum
  have hw : rangePlan rangeReq size can_seek = .whole := by
    unfold rangePlan
    rw [hp]
    simp only [if_pos hsum]
  exact ⟨hw, by rw [hw]; rfl⟩

/-- Witness for C7: two ranges of total length 2 on a 1-byte seekable
source are dropped and the plan is the whole body with status 200. -/
theorem claim7_oversized_range_ignored_witness :
    rangePlan ("bytes=0-0,0-0".toList) 1 true = .whole ∧
    (rangePlan ("bytes=0-0,0-0".toList) 1 true).status = 200 :=
  claim7_oversized_range_ignored ("bytes=0-0,0-0".toList) 1 true [⟨0, 1⟩, ⟨0, 1⟩]
    (by norm_num) rfl (by norm_num [sumRangesSize])

/-! ## Lemmas for the zero-size behaviour of the range parser -/

/-- A range spec whose part before the first dash is non-blank (the forms
`start-` and `start-end`). -/
def startNonempty (ra : List Char) : Prop :=
  ∃ a b, firstDashSplit (goTrimSpace ra) = some (a, b) ∧ goTrimSpace a ≠ []

theorem parseRangeSpec_start_nonempty_size0 {ra : List Char}
    (h : startNonempty ra) : parseRangeSpec ra 0 = .error .invalid := by
  obtain ⟨a, b, hfd, hne⟩ := h
  have hra : goTrimSpace ra ≠ [] := by
    intro h0
    rw [h0] at hfd
    exact Option.noConfusion hfd
  simp only [parseRangeSpec, hfd]
  rw [if_neg hra, if_neg hne]
  cases hp : parseInt64 (goTrimSpace a) with
  | none => rfl
  | some i =>
    have hnb : '-' ∉ goTrimSpace a := fun hm => firstDashSplit_no_dash hfd (mem_goTrimSpace hm)
    have hpos := parseInt64_nonneg hnb hp
    simp only []
    rw [if_pos (Or.inl hpos)]

theorem isDigit_not_space {c : Char} (h : c.isDigit = true) : isGoSpace c = false := by
  unfold isGoSpace
  simp only [Bool.or_eq_false_iff, beq_eq_false_iff_ne, ne_eq]
  refine ⟨⟨⟨⟨⟨⟨⟨?_, ?_⟩, ?_⟩, ?_⟩, ?_⟩, ?_⟩, ?_⟩, ?_⟩ <;>
    exact char_isDigit_ne c _ h (by decide)

theorem parseRangeSpec_suffix_size0 {ds : List Char} (hne : ds ≠ [])
    (hd : ∀ c ∈ ds, c.isDigit = true)
    (hbound : (digitsVal ds : Int) ≤ 9223372036854775807) :
    parseRangeSpec ('-' :: ds) 0 = .ok (some ⟨0, 0⟩) := by
  have hnospace : ∀ c ∈ '-' :: ds, isGoSpace c = false := by
    intro c hc
    rcases List.mem_cons.mp hc with h1 | h1
    · rw [h1]; decide
    · exact isDigit_not_space (hd c h1)
  have htrim : goTrimSpace ('-' :: ds) = '-' :: ds := goTrimSpace_eq_self hnospace
  have htrimds : goTrimSpace ds = ds :=
    goTrimSpace_eq_self (fun c hc => isDigit_not_space (hd c hc))
  have hfd : firstDashSplit ('-' :: ds) = some ([], ds) := by
    unfold firstDashSplit
    rw [if_pos rfl]
  have hd0 : (if (digitsVal ds : Int) > 0 then (0 : Int) else (digitsVal ds : Int)) = 0 := by
    split
    · rfl
    · omega
  simp only [parseRangeSpec, htrim, hfd, htrimds, parseInt64_digits hne hd hbound]
  rw [if_neg (show ('-' :: ds : List Char) ≠ [] by simp)]
  rw [if_pos (show goTrimSpace ([] : List Char) = [] from rfl)]
  rw [hd0]
  norm_num

theorem parseRange_suffix_size0 {ds : List Char} (hne : ds ≠ [])
    (hd : ∀ c ∈ ds, c.isDigit = true)
    (hbound : (digitsVal ds : Int) ≤ 9223372036854775807) (ov srt : Bool) :
    parseRange (("bytes=-".toList) ++ ds) 0 ov srt = .ok [⟨0, 0⟩] := by
  have hdrop : ((("bytes=-".toList) ++ ds)).drop 6 = '-' :: ds := by
    show (('b' :: 'y' :: 't' :: 'e' :: 's' :: '=' :: '-' :: []) ++ ds).drop 6 = '-' :: ds
    simp
  have hsplit : splitOnChar ',' ((("bytes=-".toList) ++ ds).drop 6) = ['-' :: ds] := by
    rw [hdrop]
    exact splitOnChar_no_sep (by
      intro c hc
      rcases List.mem_cons.mp hc with h1 | h1
      · rw [h1]; decide
      · exact char_isDigit_ne c ',' (hd c h1) (by decide))
  have hb : hasBytesEq (("bytes=-".toList) ++ ds) = true := rfl
  have hcoll : collectRanges ['-' :: ds] 0 = .ok [⟨0, 0⟩] := by
    simp only [collectRanges]
    rw [parseRangeSpec_suffix_size0 hne hd hbound]
  unfold parseRange
  rw [if_neg (hasBytesEq_ne_nil hb), if_pos hb, hsplit, hcoll]
  cases ov <;> cases srt <;> rfl

/-! ## Claim theorems: zero total size -/

/-- C9 (amended): at `totalSize = 0`, every range spec whose start part is
non-empty (the forms `start-` and `start-end`) makes the whole parse fail
with the invalid-range error, because the start offset must be strictly
less than the total size; a suffix spec `-N` succeeds with the single range
`{start 0, length 0}` for any non-negative `N` that fits in a signed
64-bit integer (the original claim said "for any non-negative N", but an
`N` of `2^63` or more overflows `strconv.ParseInt`'s int64 range and the
parse fails — see the counterexample). -/
theorem claim9_size_zero :
    (∀ (s ra : List Char) (ov srt : Bool),
       hasBytesEq s = true →
       ra ∈ splitOnChar ',' (s.drop 6) →
       startNonempty ra →
       parseRange s 0 ov srt = .error .invalid) ∧
    (∀ (ds : List Char) (ov srt : Bool),
       ds ≠ [] →
       (∀ c ∈ ds, c.isDigit = true) →
       (digitsVal ds : Int) ≤ 9223372036854775807 →
       parseRange (("bytes=-".toList) ++ ds) 0 ov srt = .ok [⟨0, 0⟩]) :=
  ⟨fun _ ra ov srt hb hmem hstart =>
     parseRange_error_of_collect hb
       (collectRanges_error_of_mem hmem (parseRangeSpec_start_nonempty_size0 hstart)) ov srt,
   fun ds ov srt hne hd hbound => parseRange_suffix_size0 hne hd hbound ov srt⟩

/-- Witness for C9: the spec `"5-"` has a non-empty start part and fails at
size 0; the suffix spec `"-7"` succeeds with `{start 0, length 0}`. -/
theorem claim9_size_zero_witness :
    parseRange ("bytes=5-".toList) 0 true true = .error .invalid ∧
    parseRange (("bytes=-".toList) ++ ['7']) 0 true true = .ok [⟨0, 0⟩] :=
  ⟨claim9_size_zero.1 ("bytes=5-".toList) ("5-".toList) true true rfl (by decide)
     ⟨['5'], [], rfl, by decide⟩,
   claim9_size_zero.2 ['7'] true true (by decide) (by decide) (by decide)⟩

/-- C9 counterexample: the claim as stated says a suffix spec `-N` succeeds
for every non-negative `N`, but `N = 9223372036854775808 = 2^63` is out of
`int64` range, so `strconv.ParseInt` fails and the whole parse returns the
invalid-range error instead of the predicted `{start 0, length 0}`. -/
theorem claim9_size_zero_counterexample :
    parseRange ("bytes=-9223372036854775808".toList) 0 true true = .error .invalid ∧
    parseRange ("bytes=-9223372036854775808".toList) 0 true true ≠ .ok [⟨0, 0⟩] := by
  refine ⟨rfl, ?_⟩
  intro h
  exact Except.noConfusion h

/-! ## Lemmas about the map model and the scanner -/

theorem lookupName_mem {m : List (String × File)} {k : String} {v : File}
    (h : lookupName m k = some v) : (k, v) ∈ m := by
  induction m with
  | nil => exact Option.noConfusion h
  | cons p rest ih =>
    obtain ⟨k', v'⟩ := p
    simp only [lookupName] at h
    split at h
    · next heq =>
      injection h with h'
      rw [← heq, ← h']
      exact List.mem_cons_self _ _
    · exact List.mem_cons_of_mem _ (ih h)

theorem lookupName_filter_ne {m : List (String × File)} {k k' : String} (hne : k ≠ k') :
    lookupName (m.filter (fun p => !(p.1 == k))) k' = lookupName m k' := by
  induction m with
  | nil => rfl
  | cons p rest ih =>
    obtain ⟨k0, v0⟩ := p
    rw [List.filter_cons]
    by_cases h0 : k0 = k
    · rw [if_neg (by simp [h0])]
      rw [ih]
      simp only [lookupName]
      rw [if_neg (fun hh => hne (h0.symm.trans hh))]
    · rw [if_pos (by simp [h0])]
      simp only [lookupName]
      by_cases h1 : k0 = k'
      · rw [if_pos h1, if_pos h1]
      · rw [if_neg h1, if_neg h1]
        exact ih

theorem lookupName_mapInsert (m : List (String × File)) (k k' : String) (v : File) :
    lookupName (mapInsert m k v) k' = if k = k' then some v else lookupName m k' := by
  unfold mapInsert
  simp only [lookupName]
  by_cases h : k = k'
  · rw [if_pos h, if_pos h]
  · rw [if_neg h, if_neg h]
    exact lookupName_filter_ne h

theorem insertAliases_lookup_isSome {as : List (String × File)} {cur : List (String × File)}
    {k : String} (h : (lookupName cur k).isSome = true) :
    lookupName (insertAliases cur as) k = lookupName cur k := by
  induction as generalizing cur with
  | nil => rfl
  | cons p rest ih =>
    obtain ⟨k0, v0⟩ := p
    simp only [insertAliases]
    split
    · exact ih h
    · next hnone =>
      have hk0 : ¬ k0 = k := by
        intro he
        rw [he] at hnone
        exact hnone h
      have hcur' : lookupName (mapInsert cur k0 v0) k = lookupName cur k := by
        rw [lookupName_mapInsert, if_neg hk0]
      rw [ih (by rw [hcur']; exact h), hcur']

theorem insertAliases_lookup_none {as : List (String × File)} {cur : List (String × File)}
    {k : String} (h : lookupName cur k = none) :
    lookupName (insertAliases cur as) k = lookupName as k := by
  induction as generalizing cur with
  | nil => simp only [insertAliases, lookupName, h]
  | cons p rest ih =>
    obtain ⟨k0, v0⟩ := p
    simp only [insertAliases]
    split
    · next hsome =>
      have hk0 : ¬ k0 = k := by
        intro he
        rw [he, h] at hsome
        exact Bool.noConfusion hsome
      rw [ih h]
      simp only [lookupName]
      rw [if_neg hk0]
    · next hnone =>
      by_cases hk0 : k0 = k
      · have hv : lookupName (mapInsert cur k0 v0) k = some v0 := by
          rw [lookupName_mapInsert, if_pos hk0]
        rw [insertAliases_lookup_isSome (by rw [hv]; rfl), hv]
        simp only [lookupName]
        rw [if_pos hk0]
      · have hcur' : lookupName (mapInsert cur k0 v0) k = none := by
          rw [lookupName_mapInsert, if_neg hk0]
          exact h
        rw [ih hcur']
        simp only [lookupName]
        rw [if_neg hk0]

/-- What one entry step does to the staged aliases: either unchanged, or
one alias (with the gzip flag set) appended. -/
theorem scanEntry_aliases {rules : List Handling} {old : List (String × File)} {dir : String}
    {st : ScanState} {fi : FInfo} {st' : ScanState}
    (h : scanEntry rules old dir st fi = some st') :
    st'.aliases = st.aliases ∨
    ∃ k v, st'.aliases = st.aliases ++ [(k, v)] ∧ v.gzip = true := by
  unfold scanEntry at h
  cases hf : rules.find? (fun hh => hh.matchString fi.name) with
  | none => rw [hf] at h; exact Option.noConfusion h
  | some h0 =>
    rw [hf] at h
    simp only [] at h
    cases hgz : h0.gzip with
    | none =>
      rw [hgz] at h
      split at h <;> (injection h with h'; rw [← h'])
      · exact Or.inl rfl
      · exact Or.inl rfl
    | some rep =>
      rw [hgz] at h
      by_cases hdir : fi.isDir
      · rw [if_pos hdir] at h
        split at h <;> (injection h with h'; rw [← h'])
        · exact Or.inl rfl
        · exact Or.inl rfl
      · rw [if_neg hdir] at h
        split at h <;> (injection h with h'; rw [← h'])
        · exact Or.inr ⟨_, _, rfl, rfl⟩
        · exact Or.inr ⟨_, _, rfl, rfl⟩

/-- What one entry step does to the mapping being built: unchanged when the
rule hides the entry, else exactly one binding for the entry's name is
written, holding a non-alias entry. -/
theorem scanEntry_cur {rules : List Handling} {old : List (String × File)} {dir : String}
    {st : ScanState} {fi : FInfo} {st' : ScanState}
    (h : scanEntry rules old dir st fi = some st') :
    st'.cur = st.cur ∨
    (∃ h0, rules.find? (fun hh => hh.matchString fi.name) = some h0 ∧ h0.hide = false) ∧
    ∃ n, st'.cur = mapInsert st.cur fi.name n ∧ n.gzip = false := by
  unfold scanEntry at h
  cases hf : rules.find? (fun hh => hh.matchString fi.name) with
  | none => rw [hf] at h; exact Option.noConfusion h
  | some h0 =>
    rw [hf] at h
    simp only [] at h
    split at h
    · next hhide =>
      injection h with h'
      rw [← h']
      exact Or.inl rfl
    · next hhide =>
      injection h with h'
      rw [← h']
      exact Or.inr ⟨⟨h0, rfl, by revert hhide; cases h0.hide <;> simp⟩, _, rfl, rfl⟩

theorem scanLoop_aliases_mono {rules : List Handling} {old : List (String × File)} {dir : String}
    {fis : List FInfo} {st st' : ScanState}
    (h : scanLoop rules old dir fis st = some st') {p : String × File}
    (hp : p ∈ st.aliases) : p ∈ st'.aliases := by
  induction fis generalizing st with
  | nil =>
    injection h with h'
    rw [← h']
    exact hp
  | cons fi rest ih =>
    simp only [scanLoop] at h
    cases he : scanEntry rules old dir st fi with
    | none => rw [he] at h; exact Option.noConfusion h
    | some st1 =>
      rw [he] at h
      refine ih h ?_
      rcases scanEntry_aliases he with h1 | ⟨k, v, h1, _⟩
      · rw [h1]; exact hp
      · rw [h1]; exact List.mem_append_left _ hp

theorem scanLoop_aliases_gzip {rules : List Handling} {old : List (String × File)} {dir : String}
    {fis : List FInfo} {st st' : ScanState}
    (h : scanLoop rules old dir fis st = some st')
    (hinv : ∀ p ∈ st.aliases, (p.2 : File).gzip = true) :
    ∀ p ∈ st'.aliases, p.2.gzip = true := by
  induction fis generalizing st with
  | nil =>
    injection h with h'
    rw [← h']
    exact hinv
  | cons fi rest ih =>
    simp only [scanLoop] at h
    cases he : scanEntry rules old dir st fi with
    | none => rw [he] at h; exact Option.noConfusion h
    | some st1 =>
      rw [he] at h
      refine ih h ?_
      intro p hp
      rcases scanEntry_aliases he with h1 | ⟨k, v, h1, hv⟩
      · rw [h1] at hp; exact hinv p hp
      · rw [h1] at hp
        rcases List.mem_append.mp hp with h2 | h2
        · exact hinv p h2
        · simp at h2
          rw [h2]
          exact hv

theorem scanLoop_cur_key {rules : List Handling} {old : List (String × File)} {dir : String}
    {fis : List FInfo} {st st' : ScanState}
    (h : scanLoop rules old dir fis st = some st') (k : String)
    (hk : (lookupName st'.cur k).isSome = true) :
    (lookupName st.cur k).isSome = true ∨
    ∃ fi ∈ fis, fi.name = k ∧
      ∃ h0, rules.find? (fun hh => hh.matchString fi.name) = some h0 ∧ h0.hide = false := by
  induction fis generalizing st with
  | nil =>
    injection h with h'
    rw [h']
    exact Or.inl hk
  | cons fi rest ih =>
    simp only [scanLoop] at h
    cases he : scanEntry rules old dir st fi with
    | none => rw [he] at h; exact Option.noConfusion h
    | some st1 =>
      rw [he] at h
      rcases ih h with h1 | ⟨fj, hfj, hname, hrule⟩
      · rcases scanEntry_cur he with h2 | ⟨⟨h0, hf0, hh0⟩, n, h2, _⟩
        · rw [h2] at h1
          exact Or.inl h1
        · rw [h2, lookupName_mapInsert] at h1
          by_cases hnm : fi.name = k
          · exact Or.inr ⟨fi, List.mem_cons_self _ _, hnm, h0, hf0, hh0⟩
          · rw [if_neg hnm] at h1
            exact Or.inl h1
      · exact Or.inr ⟨fj, List.mem_cons_of_mem _ hfj, hname, hrule⟩

/-- The alias staged from a non-directory entry whose rule has an alias
template is present in the staged list at the end of the entry loop. -/
theorem scanLoop_alias_staged {rules : List Handling} {old : List (String × File)} {dir : String}
    {fis : List FInfo} {st st' : ScanState} {fi : FInfo} {h0 : Handling}
    {rep : String → String}
    (h : scanLoop rules old dir fis st = some st')
    (hmem : fi ∈ fis)
    (hf : rules.find? (fun hh => hh.matchString fi.name) = some h0)
    (hgz : h0.gzip = some rep) (hdir : fi.isDir = false) :
    ∃ id, (rep fi.name, File.mk fi id [] true dir) ∈ st'.aliases := by
  induction fis generalizing st with
  | nil => exact absurd hmem (List.not_mem_nil _)
  | cons fj rest ih =>
    simp only [scanLoop] at h
    cases he : scanEntry rules old dir st fj with
    | none => rw [he] at h; exact Option.noConfusion h
    | some st1 =>
      rw [he] at h
      rcases List.mem_cons.mp hmem with h1 | h1
      · -- fi is the head entry: its alias is appended by this step
        rw [← h1] at he
        unfold scanEntry at he
        rw [hf] at he
        simp only [hgz, hdir, Bool.false_eq_true, if_false] at he
        refine ⟨(decideId old fi st.counter).1, scanLoop_aliases_mono h ?_⟩
        split at he <;> (injection he with h'; rw [← h'])
        · exact List.mem_append_right _ (List.mem_cons_self _ _)
        · exact List.mem_append_right _ (List.mem_cons_self _ _)
      · exact ih h h1

/-! ## Claim theorems: scanner -/

/-- C1: on every scan, the identity decision for an entry reuses the
previous entry's identity iff the name exists in the previous mapping with
equal modification time and unchanged directory flag; otherwise the entry
gets the next value of the process-wide monotonic counter, which differs
from every identity issued earlier (`issued` collects those, all below the
current counter value), the counter never decreases, and the entry a
non-hidden scan step inserts carries exactly this decision's identity. -/
theorem claim1_identity_reuse
    (old : List (String × File)) (fi : FInfo) (c : Nat) (issued : List Nat)
    (hiss : ∀ i ∈ issued, i < c)
    (hold : ∀ k v, lookupName old k = some v → v.id ∈ issued) :
    (∀ o, lookupName old fi.name = some o →
       o.info.modTime = fi.modTime → o.info.isDir = fi.isDir →
       decideId old fi c = (o.id, c)) ∧
    (∀ o, lookupName old fi.name = some o →
       ¬(o.info.modTime = fi.modTime ∧ o.info.isDir = fi.isDir) →
       decideId old fi c = (c, c + 1) ∧ c ∉ issued ∧ c ≠ o.id) ∧
    (lookupName old fi.name = none →
       decideId old fi c = (c, c + 1) ∧ c ∉ issued) ∧
    c ≤ (decideId old fi c).2 ∧
    (∀ (rules : List Handling) (dir : String) (st st' : ScanState) (hr : Handling),
       st.counter = c →
       scanEntry rules old dir st fi = some st' →
       rules.find? (fun hh => hh.matchString fi.name) = some hr →
       hr.hide = false →
       lookupName st'.cur fi.name =
         some (File.mk fi (decideId old fi c).1 [] false dir) ∧
       st'.counter = (decideId old fi c).2) := by
  have hnot : c ∉ issued := fun hmem => absurd (hiss c hmem) (lt_irrefl c)
  refine ⟨?_, ?_, ?_, ?_, ?_⟩
  · intro o ho hmt hdir
    simp only [decideId, ho]
    rw [if_pos ⟨hmt, hdir⟩]
  · intro o ho hcond
    have hidm : o.id ∈ issued := hold fi.name o ho
    have hne : c ≠ o.id := fun he => hnot (by rw [he]; exact hidm)
    simp only [decideId, ho]
    rw [if_neg hcond]
    exact ⟨rfl, hnot, hne⟩
  · intro ho
    simp only [decideId, ho]
    exact ⟨trivial, hnot⟩
  · cases hl : lookupName old fi.name with
    | some o =>
      simp only [decideId, hl]
      split
      · exact Nat.le_refl c
      · exact Nat.le_succ c
    | none =>
      simp only [decideId, hl]
      exact Nat.le_succ c
  · intro rules dir st st' hr hcnt hse hf hh0
    unfold scanEntry at hse
    rw [hf] at hse
    simp only [] at hse
    rw [if_neg (by rw [hh0]; exact Bool.false_ne_true)] at hse
    injection hse with h'
    refine ⟨?_, ?_⟩
    · have hcur : st'.cur =
          mapInsert st.cur fi.name (File.mk fi (decideId old fi st.counter).1 [] false dir) := by
        rw [← h']
      rw [hcur, lookupName_mapInsert, if_pos rfl, hcnt]
    · have hcnt' : st'.counter = (decideId old fi st.counter).2 := by
        rw [← h']
      rw [hcnt', hcnt]

/-- Previous children mapping used by the C1 witness. -/
def c1old : List (String × File) :=
  [("a", File.mk ⟨"a", 1, 5, false⟩ 900 [] false ("/r"))]

/-- Witness for C1: the entry `a` changed its modification time (5 to 6),
so the scan issues the fresh counter value 1000, distinct from the only
previously issued identity 900, and advances the counter. -/
theorem claim1_identity_reuse_witness :
    decideId c1old (⟨"a", 1, 6, false⟩ : FInfo) 1000 = (1000, 1001) ∧
    (1000 : Nat) ∉ [900] ∧
    (1000 : Nat) ≠ (File.mk ⟨"a", 1, 5, false⟩ 900 [] false ("/r")).id := by
  have h := claim1_identity_reuse c1old ⟨"a", 1, 6, false⟩ 1000 [900]
    (by decide)
    (by
      intro k v hv
      simp only [c1old, lookupName] at hv
      split at hv
      · injection hv with h'
        rw [← h']
        decide
      · exact Option.noConfusion hv)
  exact h.2.1 (File.mk ⟨"a", 1, 5, false⟩ 900 [] false ("/r")) rfl (by decide)

/-- C4: on every scan, the staged aliases are inserted only after the
ordinary pass has placed all non-hidden entries (`scanDir` is exactly
`insertAliases` applied to the ordinary pass's mapping), an alias never
overwrites an existing binding (so a real file always beats an alias of
the same name, and of two aliases with the same name the first staged
wins), and every binding of the final mapping is either a binding of the
ordinary pass or a dropped-in alias with the gzip flag under a name the
ordinary pass left free. -/
theorem claim4_alias_never_overwrites
    (rules : List Handling) (old : List (String × File)) (dir : String)
    (fis : List FInfo) (c : Nat) (st : ScanState)
    (hp : scanPass1 rules old dir fis c = some st) :
    scanDir rules old dir fis c = some (insertAliases st.cur st.aliases, st.counter) ∧
    (∀ k, (lookupName st.cur k).isSome = true →
       lookupName (insertAliases st.cur st.aliases) k = lookupName st.cur k) ∧
    (∀ k v, lookupName (insertAliases st.cur st.aliases) k = some v →
       lookupName st.cur k = some v ∨
       (lookupName st.cur k = none ∧ lookupName st.aliases k = some v ∧ v.gzip = true)) := by
  refine ⟨by unfold scanDir; rw [hp], ?_, ?_⟩
  · intro k hk
    exact insertAliases_lookup_isSome hk
  · intro k v hv
    cases hc : lookupName st.cur k with
    | some w =>
      rw [insertAliases_lookup_isSome (by rw [hc]; rfl), hc] at hv
      exact Or.inl hv
    | none =>
      rw [insertAliases_lookup_none hc] at hv
      refine Or.inr ⟨rfl, hv, ?_⟩
      have hgz := scanLoop_aliases_gzip hp (by intro p hp0; exact absurd hp0 (List.not_mem_nil _))
      exact hgz (k, v) (lookupName_mem hv)

/-- Rule set used by the C4 witness: filenames ending in `.gz` get a
compressed alias named without the extension; everything matches the
catch-all. -/
def c4rules : List Handling :=
  [ { matchString := fun n => n == ("x.gz"), hide := false,
      gzip := some (fun _ => ("x")) },
    { matchString := fun _ => true, hide := false, gzip := none } ]

/-- Listing used by the C4 witness: a compressed file `x.gz` whose alias
name `x` collides with the real file `x` listed after it. -/
def c4fis : List FInfo := [⟨"x.gz", 9, 100, false⟩, ⟨"x", 1, 50, false⟩]

/-- Pass-1 state produced by the C4 witness scan. -/
def c4st : ScanState :=
  { cur := [("x", File.mk ⟨"x", 1, 50, false⟩ 1001 [] false ("/r")),
            ("x.gz", File.mk ⟨"x.gz", 9, 100, false⟩ 1000 [] false ("/r"))]
    dirs := []
    aliases := [("x", File.mk ⟨"x.gz", 9, 100, false⟩ 1000 [] true ("/r"))]
    counter := 1002 }

/-- Witness for C4: the alias `x` (for `x.gz`) conflicts with the real file
`x`, so insertion leaves the real file's binding untouched. -/
theorem claim4_alias_never_overwrites_witness :
    scanDir c4rules [] ("/r") c4fis 1000 =
      some (insertAliases c4st.cur c4st.aliases, c4st.counter) ∧
    lookupName (insertAliases c4st.cur c4st.aliases) ("x") = lookupName c4st.cur ("x") := by
  have h := claim4_alias_never_overwrites c4rules [] ("/r") c4fis 1000 c4st rfl
  exact ⟨h.1, h.2.1 ("x") rfl⟩

/-- C5: on every scan with distinct listed names, a non-directory entry
whose first matching rule both hides it and carries an alias template is
itself absent from the resulting mapping (its name is either unbound or
bound only by some alias), yet its staged alias is still considered: the
alias is in the staged list, and it lands in the result whenever its name
collides with neither an ordinary entry nor an earlier alias. -/
theorem claim5_hidden_source_alias_kept
    (rules : List Handling) (old : List (String × File)) (dir : String)
    (fis : List FInfo) (c : Nat) (st : ScanState) (fi : FInfo) (h0 : Handling)
    (rep : String → String)
    (hnd : (fis.map FInfo.name).Nodup)
    (hmem : fi ∈ fis)
    (hrule : rules.find? (fun hh => hh.matchString fi.name) = some h0)
    (hhide : h0.hide = true)
    (hgz : h0.gzip = some rep)
    (hdir : fi.isDir = false)
    (hp : scanPass1 rules old dir fis c = some st) :
    (lookupName (insertAliases st.cur st.aliases) fi.name = none ∨
     ∃ v, lookupName (insertAliases st.cur st.aliases) fi.name = some v ∧ v.gzip = true) ∧
    (∃ id, (rep fi.name, File.mk fi id [] true dir) ∈ st.aliases) ∧
    (∀ a, lookupName st.cur (rep fi.name) = none →
       lookupName st.aliases (rep fi.name) = some a →
       lookupName (insertAliases st.cur st.aliases) (rep fi.name) = some a) := by
  have hcurnone : lookupName st.cur fi.name = none := by
    cases hc : lookupName st.cur fi.name with
    | none => rfl
    | some w =>
      rcases scanLoop_cur_key hp fi.name (by rw [hc]; rfl) with h1 | ⟨fj, hfj, hname, hj, hjf, hjh⟩
      · rw [show lookupName (⟨[], [], [], c⟩ : ScanState).cur fi.name = none from rfl] at h1
        exact Bool.noConfusion h1
      · have : fj = fi := List.inj_on_of_nodup_map hnd hfj hmem hname
        rw [this, hrule] at hjf
        injection hjf with hjf'
        rw [← hjf'] at hjh
        rw [hhide] at hjh
        exact Bool.noConfusion hjh
  refine ⟨?_, scanLoop_alias_staged hp hmem hrule hgz hdir, ?_⟩
  · rw [insertAliases_lookup_none hcurnone]
    cases ha : lookupName st.aliases fi.name with
    | none => exact Or.inl rfl
    | some v =>
      refine Or.inr ⟨v, rfl, ?_⟩
      have hgzall := scanLoop_aliases_gzip hp (by intro p hp0; exact absurd hp0 (List.not_mem_nil _))
      exact hgzall (fi.name, v) (lookupName_mem ha)
  · intro a hnone ha
    rw [insertAliases_lookup_none hnone, ha]

/-- Rule set used by the C5 witness: names equal to `x.gz` are hidden and
get an alias named `x`; everything else matches the catch-all. -/
def c5rules : List Handling :=
  [ { matchString := fun n => n == ("x.gz"), hide := true,
      gzip := some (fun _ => ("x")) },
    { matchString := fun _ => true, hide := false, gzip := none } ]

/-- Listing used by the C5 witness. -/
def c5fis : List FInfo := [⟨"x.gz", 9, 100, false⟩, ⟨"y", 1, 50, false⟩]

/-- Pass-1 state produced by the C5 witness scan: `x.gz` is hidden but its
alias `x` is staged. -/
def c5st : ScanState :=
  { cur := [("y", File.mk ⟨"y", 1, 50, false⟩ 1001 [] false ("/r"))]
    dirs := []
    aliases := [("x", File.mk ⟨"x.gz", 9, 100, false⟩ 1000 [] true ("/r"))]
    counter := 1002 }

/-- Witness for C5: the hidden `x.gz` does not appear in the result, its
alias `x` is staged, and since nothing else is named `x` the alias lands in
the final mapping. -/
theorem claim5_hidden_source_alias_kept_witness :
    (lookupName (insertAliases c5st.cur c5st.aliases) ("x.gz") = none ∨
     ∃ v, lookupName (insertAliases c5st.cur c5st.aliases) ("x.gz") = some v ∧ v.gzip = true) ∧
    (∃ id, (("x" : String), File.mk ⟨"x.gz", 9, 100, false⟩ id [] true ("/r")) ∈ c5st.aliases) ∧
    lookupName (insertAliases c5st.cur c5st.aliases) ("x") =
      some (File.mk ⟨"x.gz", 9, 100, false⟩ 1000 [] true ("/r")) := by
  have h := claim5_hidden_source_alias_kept c5rules [] ("/r") c5fis 1000 c5st
    ⟨"x.gz", 9, 100, false⟩
    { matchString := fun n => n == ("x.gz"), hide := true, gzip := some (fun _ => ("x")) }
    (fun _ => ("x"))
    (by decide)
    (List.mem_cons_self _ _)
    rfl rfl rfl rfl rfl
  exact ⟨h.1, h.2.1, h.2.2 (File.mk ⟨"x.gz", 9, 100, false⟩ 1000 [] true ("/r")) rfl rfl⟩

/-! ## Claim theorems: path resolution -/

/-- C6: for every GET/HEAD lookup, path resolution walks the cleaned path's
segments through the children maps; an entry is served iff the walk
succeeded and either it ended on a non-directory (served as is) or it ended
on a directory whose `index.html` child exists and is not itself a
directory; in every other case (missing segment, missing index, index is a
directory) the answer is 404 (`none`), and a directory is never served. -/
theorem claim6_resolve_walk (root : List (String × File)) (clean : String) :
    (∀ f, resolve root clean = some f ↔
       ∃ g, walkSegs root none false ((splitOnChar '/' clean.toList).map List.asString)
              = (some g, true) ∧
         ((g.info.isDir = false ∧ f = g) ∨
          (g.info.isDir = true ∧ lookupName g.contents ("index.html") = some f ∧
           f.info.isDir = false))) ∧
    (∀ f, resolve root clean = some f → f.info.isDir = false) := by
  have key : ∀ f, resolve root clean = some f ↔
       ∃ g, walkSegs root none false ((splitOnChar '/' clean.toList).map List.asString)
              = (some g, true) ∧
         ((g.info.isDir = false ∧ f = g) ∨
          (g.info.isDir = true ∧ lookupName g.contents ("index.html") = some f ∧
           f.info.isDir = false)) := by
    intro f
    unfold resolve
    rcases hw : walkSegs root none false ((splitOnChar '/' clean.toList).map List.asString)
      with ⟨x, ok⟩
    constructor
    · intro h
      cases x with
      | none => cases ok <;> exact Option.noConfusion h
      | some g0 =>
        cases ok with
        | false => exact Option.noConfusion h
        | true =>
          by_cases hdir : g0.info.isDir = true
          · cases hl : lookupName g0.contents ("index.html") with
            | none =>
              rw [show resolveStep (some g0, true) = ((none : Option File), false) from by
                    simp [resolveStep, hdir, hl]] at h
              exact Option.noConfusion h
            | some g1 =>
              rw [show resolveStep (some g0, true) = (some g1, true) from by
                    simp [resolveStep, hdir, hl]] at h
              by_cases h1 : g1.info.isDir = true
              · rw [show resolveFinal (some g1, true) = none from by
                      simp [resolveFinal, h1]] at h
                exact Option.noConfusion h
              · rw [show resolveFinal (some g1, true) = some g1 from by
                      simp [resolveFinal, h1]] at h
                injection h with h'
                refine ⟨g0, rfl, Or.inr ⟨hdir, ?_, ?_⟩⟩
                · rw [hl, h']
                · rw [← h']
                  revert h1
                  cases g1.info.isDir <;> simp
          · rw [show resolveStep (some g0, true) = (some g0, true) from by
                  simp [resolveStep, hdir]] at h
            rw [show resolveFinal (some g0, true) = some g0 from by
                  simp [resolveFinal, hdir]] at h
            injection h with h'
            refine ⟨g0, rfl, Or.inl ⟨?_, h'.symm⟩⟩
            revert hdir
            cases g0.info.isDir <;> simp
    · rintro ⟨g, hwalk, hcase⟩
      rw [Prod.mk.injEq] at hwalk
      obtain ⟨hx, hok⟩ := hwalk
      subst hx
      subst hok
      rcases hcase with ⟨hgdir, hfg⟩ | ⟨hgdir, hlook, hfdir⟩
      · subst hfg
        rw [show resolveStep (some f, true) = (some f, true) from by
              simp [resolveStep, hgdir]]
        simp [resolveFinal, hgdir]
      · rw [show resolveStep (some g, true) = (some f, true) from by
              simp [resolveStep, hgdir, hlook]]
        simp [resolveFinal, hfdir]
  refine ⟨key, ?_⟩
  intro f h
  rcases (key f).mp h with ⟨g, hwalk, hcase⟩
  rcases hcase with ⟨hgdir, hfg⟩ | ⟨_, _, hfdir⟩
  · rw [hfg]; exact hgdir
  · exact hfdir

/-- Served file used by the C6 witness. -/
def c6fA : File := .mk ⟨"a.html", 3, 10, false⟩ 5 [] false ("/r")

/-- Directory holding an `index.html` used by the C6 witness. -/
def c6dirD : File := .mk ⟨"d", 0, 11, true⟩ 6 [("index.html", c6fA)] false ("/r")

/-- Snapshot root used by the C6 witness. -/
def c6root : List (String × File) := [("d", c6dirD)]

/-- Witness for C6: resolving the directory path `/d` serves the directory's
`index.html` entry, which is not a directory. -/
theorem claim6_resolve_walk_witness :
    resolve c6root ("/d") = some c6fA ∧ c6fA.info.isDir = false := by
  have h := claim6_resolve_walk c6root ("/d")
  have hr : resolve c6root ("/d") = some c6fA :=
    (h.1 c6fA).mpr ⟨c6dirD, rfl, Or.inr ⟨rfl, rfl, rfl⟩⟩
  exact ⟨hr, h.2 c6fA hr⟩

/-! ## Lemmas about the byte-skip fallback -/

theorem skipCap_le (h : Int) : skipCap h ≤ 32768 := by
  unfold skipCap
  split <;> omega

theorem skipCap_pos {h : Int} (hp : 0 < h) : 0 < skipCap h := by
  unfold skipCap
  split <;> omega

theorem skipCap_le_self (h : Int) : skipCap h ≤ h := by
  unfold skipCap
  split <;> omega

/-- Every read of the skip loop is performed through a buffer slice of at
most 32768 bytes (positive capacity), by one of the reader's behaviours. -/
theorem skipTrace_shape (reads : List (Int → ReadRes)) :
    ∀ (h0 : Int), ∀ p ∈ skipTrace reads h0,
      p.1 ≤ 32768 ∧ 0 < p.1 ∧ ∃ f ∈ reads, p.2 = f p.1 := by
  induction reads with
  | nil => intro h0 p hp; simp [skipTrace] at hp
  | cons f rest ih =>
    intro h0 p hp
    simp only [skipTrace] at hp
    by_cases hh : h0 ≤ 0
    · rw [if_pos hh] at hp
      simp at hp
    · rw [if_neg hh] at hp
      by_cases hn : (f (skipCap h0)).n ≤ 0
      · rw [if_pos hn] at hp
        cases he : (f (skipCap h0)).err with
        | some e' =>
          rw [he] at hp
          simp at hp
          rw [hp]
          exact ⟨skipCap_le h0, skipCap_pos (by omega), f, List.mem_cons_self _ _, rfl⟩
        | none =>
          rw [he] at hp
          rcases List.mem_cons.mp hp with h1 | h1
          · rw [h1]
            exact ⟨skipCap_le h0, skipCap_pos (by omega), f, List.mem_cons_self _ _, rfl⟩
          · obtain ⟨hle, hpos, g, hg, hpg⟩ := ih _ p h1
            exact ⟨hle, hpos, g, List.mem_cons_of_mem _ hg, hpg⟩
      · rw [if_neg hn] at hp
        rcases List.mem_cons.mp hp with h1 | h1
        · rw [h1]
          exact ⟨skipCap_le h0, skipCap_pos (by omega), f, List.mem_cons_self _ _, rfl⟩
        · obtain ⟨hle, hpos, g, hg, hpg⟩ := ih _ p h1
          exact ⟨hle, hpos, g, List.mem_cons_of_mem _ hg, hpg⟩

/-- The skip loop aborts with an error exactly when its last read returned
an error together with a non-positive byte count. -/
theorem skipGo_fail_iff (reads : List (Int → ReadRes)) (h0 : Int) (e : Nat) :
    skipGo reads h0 = .fail e ↔
      ∃ p, (skipTrace reads h0).getLast? = some p ∧ p.2.n ≤ 0 ∧ p.2.err = some e := by
  induction reads generalizing h0 with
  | nil =>
    simp only [skipGo, skipTrace]
    split <;> simp
  | cons f rest ih =>
    simp only [skipGo, skipTrace]
    by_cases hh : h0 ≤ 0
    · rw [if_pos hh, if_pos hh]
      simp
    · rw [if_neg hh, if_neg hh]
      by_cases hn : (f (skipCap h0)).n ≤ 0
      · rw [if_pos hn, if_pos hn]
        cases he : (f (skipCap h0)).err with
        | none =>
          rw [ih]
          cases ht : skipTrace rest (h0 - (f (skipCap h0)).n) with
          | nil => simp [he]
          | cons q qs => rw [List.getLast?_cons_cons]
        | some e' => simp [hn, he]
      · rw [if_neg hn, if_neg hn]
        rw [ih]
        cases ht : skipTrace rest (h0 - (f (skipCap h0)).n) with
        | nil => simp [hn]
        | cons q qs => rw [List.getLast?_cons_cons]

/-- Under the reader contract (a read returns between 0 and the passed
capacity many bytes), a normally-terminating skip has consumed exactly the
requested count: the final `howmany` is zero. -/
theorem skipGo_done_zero (reads : List (Int → ReadRes)) :
    ∀ (h0 : Int),
      (∀ f ∈ reads, ∀ c : Int, 0 < c → 0 ≤ (f c).n ∧ (f c).n ≤ c) → 0 ≤ h0 →
      ∀ r, skipGo reads h0 = .done r → r = 0 := by
  induction reads with
  | nil =>
    intro h0 hc hpos r h
    simp only [skipGo] at h
    split at h
    · injection h with h'
      omega
    · exact SkipOut.noConfusion h
  | cons f rest ih =>
    intro h0 hc hpos r h
    simp only [skipGo] at h
    by_cases hh : h0 ≤ 0
    · rw [if_pos hh] at h
      injection h with h'
      omega
    · rw [if_neg hh] at h
      have hcf := hc f (List.mem_cons_self _ _) (skipCap h0) (skipCap_pos (by omega))
      have hcap := skipCap_le_self h0
      have hnext : 0 ≤ h0 - (f (skipCap h0)).n := by omega
      by_cases hn : (f (skipCap h0)).n ≤ 0
      · rw [if_pos hn] at h
        cases he : (f (skipCap h0)).err with
        | some e' =>
          rw [he] at h
          exact SkipOut.noConfusion h
        | none =>
          rw [he] at h
          exact ih _ (fun g hg => hc g (List.mem_cons_of_mem _ hg)) hnext r h
      · rw [if_neg hn] at h
        exact ih _ (fun g hg => hc g (List.mem_cons_of_mem _ hg)) hnext r h

/-! ## Claim theorems: byte-skip fallback -/

/-- C8: the byte-skip fallback passes each read a buffer slice of at most
32768 bytes (so, under the reader contract, at most 32768 bytes are read
and discarded per call); the loop aborts with an error exactly when a read
returns an error together with zero or fewer bytes (an error alongside a
positive count does not abort); and on normal termination of a
non-negative request exactly the requested number of bytes has been
consumed (the remaining count is zero). -/
theorem claim8_skip_loop :
    ∀ (reads : List (Int → ReadRes)) (h0 : Int),
      (∀ p ∈ skipTrace reads h0, p.1 ≤ 32768) ∧
      ((∀ f ∈ reads, ∀ c : Int, 0 < c → (f c).n ≤ c) →
         ∀ p ∈ skipTrace reads h0, p.2.n ≤ 32768) ∧
      (∀ e, skipGo reads h0 = .fail e ↔
         ∃ p, (skipTrace reads h0).getLast? = some p ∧ p.2.n ≤ 0 ∧ p.2.err = some e) ∧
      ((∀ f ∈ reads, ∀ c : Int, 0 < c → 0 ≤ (f c).n ∧ (f c).n ≤ c) → 0 ≤ h0 →
         ∀ r, skipGo reads h0 = .done r → r = 0) := by
  intro reads h0
  refine ⟨?_, ?_, skipGo_fail_iff reads h0, skipGo_done_zero reads h0⟩
  · intro p hp
    exact (skipTrace_shape reads h0 p hp).1
  · intro hc p hp
    obtain ⟨hle, hpos, g, hg, hpg⟩ := skipTrace_shape reads h0 p hp
    rw [hpg]
    exact le_trans (hc g hg p.1 hpos) hle

/-- Reader used by the C8 witness: two reads that each fill the whole
buffer slice they are offered. -/
def c8reads : List (Int → ReadRes) := [fun c => ⟨c, none⟩, fun c => ⟨c, none⟩]

/-- Witness for C8: the demo reader obeys the contract; skipping 40000
bytes takes a full 32768-byte read and a 7232-byte read and terminates
with zero bytes remaining. -/
theorem claim8_skip_loop_witness :
    (∀ f ∈ c8reads, ∀ c : Int, 0 < c → 0 ≤ (f c).n ∧ (f c).n ≤ c) ∧
    (∀ r, skipGo c8reads 40000 = .done r → r = 0) ∧
    skipGo c8reads 40000 = .done 0 := by
  have hc : ∀ f ∈ c8reads, ∀ c : Int, 0 < c → 0 ≤ (f c).n ∧ (f c).n ≤ c := by
    intro f hf c hcpos
    rcases List.mem_cons.mp hf with h1 | h1
    · rw [h1]
      exact ⟨le_of_lt hcpos, le_refl c⟩
    · rcases List.mem_cons.mp h1 with h2 | h2
      · rw [h2]
        exact ⟨le_of_lt hcpos, le_refl c⟩
      · exact absurd h2 (List.not_mem_nil _)
  exact ⟨hc, (claim8_skip_loop c8reads 40000).2.2.2 hc (by norm_num), by decide⟩

/-! ## Claim theorems: Accept-Encoding -/

/-- C10: the server judges the client to accept gzip iff some
comma-separated element of some `Accept-Encoding` header value equals
exactly `"gzip"` after trimming surrounding white space; elements with
parameters (`"gzip;q=0"`) or different case (`"GZIP"`) do not count, and a
compressed alias served to such a client is transparently decompressed
(the stream handed on is not gzip-encoded). -/
theorem claim10_accept_encoding (vals : List String) :
    (understandsGzip vals = true ↔
       ∃ aes ∈ vals, ∃ ae ∈ splitOnChar ',' aes.toList, goTrimSpace ae = ("gzip".toList)) ∧
    understandsGzip [("gzip;q=0")] = false ∧
    understandsGzip [("GZIP")] = false ∧
    understandsGzip [("deflate, gzip")] = true ∧
    (understandsGzip vals = false →
       getStreamIsGzipped true (understandsGzip vals) = false) := by
  refine ⟨?_, rfl, rfl, rfl, ?_⟩
  · unfold understandsGzip
    rw [List.any_eq_true]
    constructor
    · rintro ⟨aes, hmem, hae⟩
      rw [List.any_eq_true] at hae
      obtain ⟨ae, haem, hgz⟩ := hae
      exact ⟨aes, hmem, ae, haem, by rwa [beq_iff_eq] at hgz⟩
    · rintro ⟨aes, hmem, ae, haem, hgz⟩
      exact ⟨aes, hmem, List.any_eq_true.mpr ⟨ae, haem, beq_iff_eq.mpr hgz⟩⟩
  · intro h
    rw [h]
    rfl

/-- Witness for C10: a client sending only `Accept-Encoding: gzip;q=0` is
judged to not accept gzip, and a compressed alias is handed to it
decompressed. -/
theorem claim10_accept_encoding_witness :
    getStreamIsGzipped true (understandsGzip [("gzip;q=0")]) = false :=
  (claim10_accept_encoding [("gzip;q=0")]).2.2.2.2
    ((claim10_accept_encoding [("gzip;q=0")]).2.1)

end Garcon
